import Mathlib

/-!
Verification development for the DPoS consensus core of happytoken/happyChain.

The Go sources embedded here are:
* `types/dpos_context.go` (the five-trie `DposContext` with its vote-lifecycle
  operations, snapshot/revert, and `Commit`), and
* `consensus/dpos/dpos.go` (slot scheduler `PrevSlot`/`NextSlot`, block-signer
  verification, the confirmed-block walk, and `updateMintCnt`).

Modelling conventions:
* Byte strings are `List Nat`; a `common.Address` is a byte string of length 20
  (`Address.Bytes()` produces exactly 20 bytes), carried as a hypothesis where
  a statement needs it.
* A Merkle-Patricia trie is modelled as an association list of (key, value)
  entries up to key-lookup semantics.  `TryUpdate` with an empty value deletes
  the key, exactly as in the Go trie; `TryGet` of an absent key yields `none`
  (Go returns a nil slice).  Iteration order of the underlying trie (hex-nibble
  key order) is immaterial to every property proved here, so entry order in the
  list is not canonicalised.
* Keccak-256 is an external collaborator (spec section 6); a trie root hash is
  modelled under the standard collision-free abstraction as the trie contents
  themselves, and the 32-byte key form used by `Commit`'s self-referential
  `TryUpdate(root, Get(root))` is an explicit injective serialisation.
* Go `int64` arithmetic is modelled as `Int` with Go's truncated division
  (`Int.tdiv`); `uint64` conversions wrap modulo `2^64`.
-/

abbrev Bytes := List Nat

abbrev Entry := Bytes × Bytes

/-- Association-list lookup: the value stored under key `k`, if any. -/
def lookupKey : List Entry → Bytes → Option Bytes
  | [], _ => none
  | e :: tl, k => if e.1 = k then some e.2 else lookupKey tl k

/-- A trie, modelled as its list of (key, value) entries. -/
structure Trie where
  entries : List Entry
deriving DecidableEq, Repr

/-- Model of `trie.TryGet` (nil result for an absent key becomes `none`). -/
def Trie.get (t : Trie) (k : Bytes) : Option Bytes :=
  lookupKey t.entries k

/-- Model of `trie.TryDelete`: remove the entry for `k` (a no-op when absent,
matching the Go trie, which silently ignores deletion of a missing key). -/
def Trie.eraseKey (t : Trie) (k : Bytes) : Trie :=
  ⟨t.entries.filter (fun e => decide (e.1 ≠ k))⟩

/-- Insert or replace the binding of key `k` with a (nonempty) value `v`. -/
def Trie.insert (t : Trie) (k v : Bytes) : Trie :=
  ⟨(k, v) :: (t.eraseKey k).entries⟩

/-- Model of `trie.TryUpdate`: an empty value deletes the key (Go
`if len(value) == 0 { t.Delete }`), otherwise the binding is replaced. -/
def Trie.update (t : Trie) (k v : Bytes) : Trie :=
  if v = [] then t.eraseKey k else t.insert k v

/-- The empty trie (every trie of a fresh `DposContext` starts at the
empty-trie root, `common.Hash{}`). -/
def emptyTrie : Trie := ⟨[]⟩

/-- The five-trie DPoS context (`types.DposContext`).  The shared backing
`trie.Database` carries no observable state at this level of modelling: it only
receives the root flushes recorded by `DposContext.Commit`'s event trace. -/
structure DposContext where
  epochTrie : Trie
  delegateTrie : Trie
  voteTrie : Trie
  candidateTrie : Trie
  mintCntTrie : Trie
deriving DecidableEq, Repr

/-- Model of `NewDposContext` on an empty database: all five tries empty. -/
def NewDposContext : DposContext :=
  ⟨emptyTrie, emptyTrie, emptyTrie, emptyTrie, emptyTrie⟩

/-- Model of `DposContext.BecomeCandidate`: write `addr → addr` into the candidate
trie.  With no storage errors the operation always succeeds. -/
def DposContext.BecomeCandidate (d : DposContext) (candidateAddr : Bytes) :
    Except String DposContext :=
  .ok { d with candidateTrie := d.candidateTrie.update candidateAddr candidateAddr }

/-- Model of `DposContext.Delegate`: reject unless the candidate is registered; drop the
voter's previous delegate row if it voted before; then write the delegate row
`candidate ‖ voter → voter` and the vote row `voter → candidate`. -/
def DposContext.Delegate (d : DposContext) (delegatorAddr candidateAddr : Bytes) :
    Except String DposContext :=
  let delegator := delegatorAddr
  let candidate := candidateAddr
  match d.candidateTrie.get candidate with
  | none => .error "invalid candidate to delegate"
  | some _ =>
    let oldCandidate := d.voteTrie.get delegator
    let d1 :=
      match oldCandidate with
      | some oldc => { d with delegateTrie := d.delegateTrie.eraseKey (oldc ++ delegator) }
      | none => d
    let d2 := { d1 with delegateTrie := d1.delegateTrie.update (candidate ++ delegator) delegator }
    .ok { d2 with voteTrie := d2.voteTrie.update delegator candidate }

/-- Model of `DposContext.UnDelegate`: reject unless the candidate is registered and is
the voter's current vote (`bytes.Equal(candidate, oldCandidate)`, where a
missing vote reads as the empty byte string); then delete both rows. -/
def DposContext.UnDelegate (d : DposContext) (delegatorAddr candidateAddr : Bytes) :
    Except String DposContext :=
  let delegator := delegatorAddr
  let candidate := candidateAddr
  match d.candidateTrie.get candidate with
  | none => .error "invalid candidate to undelegate"
  | some _ =>
    let oldCandidate := (d.voteTrie.get delegator).getD []
    if candidate = oldCandidate then
      .ok { d with
              delegateTrie := d.delegateTrie.eraseKey (candidate ++ delegator),
              voteTrie := d.voteTrie.eraseKey delegator }
    else
      .error "mismatch candidate to undelegate"

/-- One body of `KickoutCandidate`'s delegator loop: delete the delegate row
`candidate ‖ delegator` and, when the delegator's current vote equals the
kicked candidate, delete its vote row. -/
def kickStep (candidate : Bytes) (acc : DposContext) (delegator : Bytes) : DposContext :=
  let acc1 := { acc with delegateTrie := acc.delegateTrie.eraseKey (candidate ++ delegator) }
  if acc1.voteTrie.get delegator = some candidate then
    { acc1 with voteTrie := acc1.voteTrie.eraseKey delegator }
  else acc1

/-- Model of `DposContext.KickoutCandidate`: remove the candidate, then walk the
delegate entries whose key starts with the candidate's bytes (the iterator is
built before the deletions, so it sees the pre-deletion contents; its values
are the delegator addresses) and cascade-delete.  Missing-node errors are
swallowed, so with no storage errors the operation always succeeds. -/
def DposContext.KickoutCandidate (d : DposContext) (candidateAddr : Bytes) : DposContext :=
  let candidate := candidateAddr
  let d1 := { d with candidateTrie := d.candidateTrie.eraseKey candidate }
  let delegators :=
    (d1.delegateTrie.entries.filter (fun e => candidate.isPrefixOf e.1)).map Prod.snd
  delegators.foldl (kickStep candidate) d1

/-- Model of `DposContext.Copy`: a shallow copy of the five trie handles. -/
def DposContext.Copy (d : DposContext) : DposContext :=
  ⟨d.epochTrie, d.delegateTrie, d.voteTrie, d.candidateTrie, d.mintCntTrie⟩

/-- Model of `DposContext.Snapshot` is exactly `Copy`. -/
def DposContext.Snapshot (d : DposContext) : DposContext :=
  d.Copy

/-- Model of `DposContext.RevertToSnapShot`: restore all five trie handles from the
snapshot (the receiver's previous tries are discarded). -/
def DposContext.RevertToSnapShot (_d snapshot : DposContext) : DposContext :=
  ⟨snapshot.epochTrie, snapshot.delegateTrie, snapshot.voteTrie,
    snapshot.candidateTrie, snapshot.mintCntTrie⟩

/-- A trie root hash, under the collision-free abstraction (Keccak-256 is an
external collaborator): the root is identified with the trie contents. -/
abbrev RootHash := Trie

/-- Model of `Trie.Hash`/`Trie.Commit`'s returned root. -/
def Trie.hashRoot (t : Trie) : RootHash := t

/-- The byte form `root[:]` of a root hash, as used by `Commit`'s
self-referential `TryUpdate(root[:], Get(root[:]))`: an injective
serialisation standing in for the 32 hash bytes. -/
def rootKeyBytes (r : RootHash) : Bytes :=
  r.entries.length :: (r.entries.map (fun e => e.1.length :: e.1 ++ e.2.length :: e.2)).flatten

/-- Model of `TryUpdate(k, Get(k))` where `Get` yields nil (that is, the empty
byte string) for an absent key: replace the binding when present, delete the
(absent) key otherwise. -/
def Trie.touch (t : Trie) (k : Bytes) : Trie :=
  t.update k ((t.get k).getD [])

/-- One per-trie step of `Commit`: `root := trie.Commit(nil)` followed by
`trie.TryUpdate(root[:], trie.Get(root[:]))`. -/
def Trie.commitRoot (t : Trie) : RootHash × Trie :=
  let root := t.hashRoot
  (root, t.touch (rootKeyBytes root))

/-- Model of `types.DposContextProto`: the five-root digest returned by `Commit`. -/
structure DposContextProto where
  EpochHash : RootHash
  DelegateHash : RootHash
  CandidateHash : RootHash
  VoteHash : RootHash
  MintCntHash : RootHash
deriving DecidableEq, Repr

/-- The five tries, for naming commit/flush trace events. -/
inductive TrieTag
  | epoch | delegate | vote | candidate | mintCnt
deriving DecidableEq, Repr

/-- Observable events of `DposContext.Commit`: `commitTrie n` is the
`n`-trie's `Commit(nil)` call, `flushRoot n` is the backing-store flush
`db.Commit(<n's committed root>, true)`. -/
inductive CommitEvent
  | commitTrie (t : TrieTag)
  | flushRoot (t : TrieTag)
deriving DecidableEq, Repr

/-- Model of `DposContext.Commit`: commit the five tries in source order (epoch,
delegate, vote, candidate, mintCnt), then flush the committed roots to the
backing store in source order (epoch, delegate, candidate, vote, mintCnt),
and return the proto built from the committed roots.  The event trace records
both call sequences in execution order. -/
def DposContext.Commit (d : DposContext) :
    DposContext × DposContextProto × List CommitEvent :=
  let (epochRoot, epochTrie) := d.epochTrie.commitRoot
  let (delegateRoot, delegateTrie) := d.delegateTrie.commitRoot
  let (voteRoot, voteTrie) := d.voteTrie.commitRoot
  let (candidateRoot, candidateTrie) := d.candidateTrie.commitRoot
  let (mintCntRoot, mintCntTrie) := d.mintCntTrie.commitRoot
  (⟨epochTrie, delegateTrie, voteTrie, candidateTrie, mintCntTrie⟩,
   { EpochHash := epochRoot
     DelegateHash := delegateRoot
     VoteHash := voteRoot
     CandidateHash := candidateRoot
     MintCntHash := mintCntRoot },
   [.commitTrie .epoch, .commitTrie .delegate, .commitTrie .vote,
    .commitTrie .candidate, .commitTrie .mintCnt,
    .flushRoot .epoch, .flushRoot .delegate, .flushRoot .candidate,
    .flushRoot .vote, .flushRoot .mintCnt])

/-- The backing-store flush sequence of a `Commit` trace. -/
def flushOrder (trace : List CommitEvent) : List TrieTag :=
  trace.filterMap (fun ev => match ev with
    | .flushRoot t => some t
    | _ => none)

/-- The per-trie commit sequence of a `Commit` trace. -/
def commitOrder (trace : List CommitEvent) : List TrieTag :=
  trace.filterMap (fun ev => match ev with
    | .commitTrie t => some t
    | _ => none)

/-- Model of `DposContext.Root`: the Keccak fold over the five roots in source order
(epoch, delegate, candidate, vote, mintCnt), under the collision-free
abstraction: the digest is identified with the ordered root tuple. -/
def DposContext.Root (d : DposContext) : List RootHash :=
  [d.epochTrie.hashRoot, d.delegateTrie.hashRoot, d.candidateTrie.hashRoot,
   d.voteTrie.hashRoot, d.mintCntTrie.hashRoot]

/-- The fixed epoch-trie key `[]byte("validator")` (ASCII bytes). -/
def validatorKey : Bytes := [118, 97, 108, 105, 100, 97, 116, 111, 114]

/-- Modelled from the spec: the canonical length-prefixed recursive
serialisation (`rlp`) is an external collaborator (spec section 6) whose code
is not under `src/`; this models encoding of an ordered address list as a
length-prefixed item sequence. -/
def rlpEncodeList (l : List Bytes) : Bytes :=
  l.length :: (l.map (fun a => a.length :: a)).flatten

/-- Decode `n` length-prefixed items. -/
def rlpDecodeItems : Nat → Bytes → Except String (List Bytes)
  | 0, [] => .ok []
  | 0, _ :: _ => .error "rlp: trailing bytes"
  | _ + 1, [] => .error "rlp: unexpected EOF"
  | n + 1, len :: rest =>
    if rest.length < len then .error "rlp: unexpected EOF"
    else (rlpDecodeItems n (rest.drop len)).map (fun tl => rest.take len :: tl)

/-- Modelled from the spec: decoding under the canonical serialisation; an
empty input (the nil value read for an absent key) fails, as `rlp.DecodeBytes`
fails with EOF on empty input. -/
def rlpDecodeList (b : Bytes) : Except String (List Bytes) :=
  match b with
  | [] => .error "rlp: empty input"
  | n :: rest => rlpDecodeItems n rest

/-- Model of `DposContext.GetValidators`: read the epoch-trie value under
`"validator"` (nil when absent) and decode it, wrapping a decode failure. -/
def DposContext.GetValidators (d : DposContext) : Except String (List Bytes) :=
  let validatorsRLP := (d.epochTrie.get validatorKey).getD []
  match rlpDecodeList validatorsRLP with
  | .error e => .error ("failed to decode validators: " ++ e)
  | .ok validators => .ok validators

/-- Model of `DposContext.SetValidators`: encode the list and store it under
`"validator"` (encoding an address list never fails). -/
def DposContext.SetValidators (d : DposContext) (validators : List Bytes) : DposContext :=
  { d with epochTrie := d.epochTrie.update validatorKey (rlpEncodeList validators) }

/-- A mutation of the vote-lifecycle state, for sequences of operations.
A failed operation leaves the context unchanged (every error path in the Go
code precedes its first mutation, absent storage errors). -/
inductive Op
  | becomeCandidate (c : Bytes)
  | kickoutCandidate (c : Bytes)
  | delegateOp (v c : Bytes)
  | unDelegate (v c : Bytes)
deriving DecidableEq, Repr

/-- Well-formed operation: all addresses are 20 bytes, as `common.Address`
guarantees. -/
def Op.wf : Op → Prop
  | .becomeCandidate c => c.length = 20
  | .kickoutCandidate c => c.length = 20
  | .delegateOp v c => v.length = 20 ∧ c.length = 20
  | .unDelegate v c => v.length = 20 ∧ c.length = 20

instance : DecidablePred Op.wf := fun op => by
  cases op <;> (unfold Op.wf) <;> infer_instance

/-- Apply one operation, keeping the prior state on error. -/
def DposContext.step (d : DposContext) (op : Op) : DposContext :=
  match op with
  | .becomeCandidate c =>
    match d.BecomeCandidate c with
    | .ok d' => d'
    | .error _ => d
  | .kickoutCandidate c => d.KickoutCandidate c
  | .delegateOp v c =>
    match d.Delegate v c with
    | .ok d' => d'
    | .error _ => d
  | .unDelegate v c =>
    match d.UnDelegate v c with
    | .ok d' => d'
    | .error _ => d

/-- Apply a sequence of operations. -/
def DposContext.run (d : DposContext) (ops : List Op) : DposContext :=
  ops.foldl DposContext.step d

/-- The (candidate, voter) pair encoded by a delegate-trie entry: the key is
`candidate ‖ voter` with a 20-byte candidate. -/
def pairD (e : Entry) : Bytes × Bytes :=
  (e.1.take 20, e.1.drop 20)

/-- The (candidate, voter) pair encoded by a vote-trie entry: key is the
voter, value the candidate. -/
def pairV (e : Entry) : Bytes × Bytes :=
  (e.2, e.1)

/-- The multiset of (candidate, voter) pairs represented by the delegate
trie. -/
def delegatePairsM (d : DposContext) : Multiset (Bytes × Bytes) :=
  (d.delegateTrie.entries.map pairD : List (Bytes × Bytes))

/-- The multiset of (candidate, voter) pairs represented by the vote trie. -/
def votePairsM (d : DposContext) : Multiset (Bytes × Bytes) :=
  (d.voteTrie.entries.map pairV : List (Bytes × Bytes))

/-- The inductive well-formedness invariant of the vote/delegate state:
delegate keys decompose as `candidate ‖ voter` with the stored value the
voter, vote entries bind 20-byte addresses, keys are unique in both tries,
and the two tries encode the same multiset of (candidate, voter) pairs. -/
def VoteInv (d : DposContext) : Prop :=
  (∀ e ∈ d.delegateTrie.entries,
      (e.1.take 20).length = 20 ∧ e.1 = e.1.take 20 ++ e.2 ∧ e.2.length = 20) ∧
  (∀ e ∈ d.voteTrie.entries, e.1.length = 20 ∧ e.2.length = 20) ∧
  (d.delegateTrie.entries.map Prod.fst).Nodup ∧
  (d.voteTrie.entries.map Prod.fst).Nodup ∧
  delegatePairsM d = votePairsM d

/-- Go truncated division on `int64` values: `Int.tdiv` rounds toward zero,
exactly as Go's `/` on signed integers. -/
def goDiv (a b : Int) : Int := Int.tdiv a b

/-- Model of `PrevSlot(now, blockInterval)` from dpos.go:
`int64((now-1)/int64(blockInterval)) * int64(blockInterval)`. -/
def PrevSlot (now blockInterval : Int) : Int :=
  goDiv (now - 1) blockInterval * blockInterval

/-- Model of `NextSlot(now, blockInterval)` from dpos.go:
`int64((now+int64(blockInterval)-1)/int64(blockInterval)) * int64(blockInterval)`. -/
def NextSlot (now blockInterval : Int) : Int :=
  goDiv (now + blockInterval - 1) blockInterval * blockInterval

/-- The error values surfaced by `verifyBlockSigner`. -/
inductive DposError
  | invalidBlockValidator
  | mismatchSignerAndValidator
deriving DecidableEq, Repr

/-- Model of `Dpos.verifyBlockSigner`: `signer` is the address recovered by
`ecrecover` from the header's seal (ECDSA recovery is an external
collaborator, so the recovered address is an input here), `validator` is the
scheduler's expected validator for the header's time, and `headerValidator`
is the header's validator field.  The Go comparisons are
`bytes.Compare(x, y) != 0`, that is, byte-string inequality. -/
def verifyBlockSigner (signer validator headerValidator : Bytes) :
    Except DposError Unit :=
  if signer ≠ validator then .error .invalidBlockValidator
  else if signer ≠ headerValidator then .error .mismatchSignerAndValidator
  else .ok ()

/-- Model of `epochInterval = int64(86400)` seconds. -/
def epochInterval : Int := 86400

/-- A block header as read by the confirmation walk.  The header hash is
modelled under the collision-free abstraction as the header itself, so
`Hash() != Hash()` becomes structural inequality. -/
structure Header where
  number : Nat
  time : Int
  validator : Bytes
deriving DecidableEq, Repr

/-- The loop of `Dpos.updateConfirmedBlockHeader`, walking from the current
header `cur` toward the confirmed header along `parents` (the successive
`GetHeaderByHash(cur.ParentHash)` results).  `epoch` starts at `-1` and
`wmap` (the `validatorMap`) starts empty; the returned flag records whether
`storeConfirmedBlockHeader` persisted a new confirmed header. -/
def updateConfirmedLoop (maxValidatorSize : Nat) (confirmed : Header) (cur : Header)
    (parents : List Header) (epoch : Int) (wmap : List Bytes) :
    Except String (Header × Bool) :=
  if confirmed ≠ cur ∧ confirmed.number < cur.number then
    let curEpoch := goDiv cur.time epochInterval
    let epoch1 := if curEpoch ≠ epoch then curEpoch else epoch
    let wmap1 := if curEpoch ≠ epoch then ([] : List Bytes) else wmap
    let consensusSize := maxValidatorSize * 2 / 3 + 1
    if (cur.number : Int) - (confirmed.number : Int) <
        (consensusSize : Int) - (wmap1.length : Int) then
      .ok (confirmed, false)
    else
      let wmap2 := if cur.validator ∈ wmap1 then wmap1 else cur.validator :: wmap1
      if consensusSize ≤ wmap2.length then
        .ok (cur, true)
      else
        match parents with
        | [] => .error "nil block header returned"
        | p :: ps => updateConfirmedLoop maxValidatorSize confirmed p ps epoch1 wmap2
  else
    .ok (confirmed, false)

/-- Big-endian 8-byte encoding of `uint64(n)` (only the low 64 bits of `n`
contribute, as in `binary.BigEndian.PutUint64`). -/
def be8 (n : Nat) : Bytes :=
  [n / 2 ^ 56 % 256, n / 2 ^ 48 % 256, n / 2 ^ 40 % 256, n / 2 ^ 32 % 256,
   n / 2 ^ 24 % 256, n / 2 ^ 16 % 256, n / 2 ^ 8 % 256, n % 256]

/-- Go conversion `uint64(i)` of an `int64`: wrap modulo `2^64`. -/
def toU64 (i : Int) : Nat := (Int.emod i (2 ^ 64)).toNat

/-- Model of `binary.BigEndian.Uint64` of a stored 8-byte count value. -/
def beDecode (b : Bytes) : Nat := b.foldl (fun a x => a * 256 + x) 0

/-- Byte-lexicographic order on keys: the trie iterates keys in hex-nibble
path order, which on byte-aligned keys is byte-lexicographic. -/
def lexLe : Bytes → Bytes → Bool
  | [], _ => true
  | _ :: _, [] => false
  | a :: as, b :: bs => Nat.blt a b || (a == b && lexLe as bs)

/-- Model of `updateMintCnt(parentBlockTime, currentBlockTime, validator, dposContext)`:
compute the parent's epoch and the current epoch; when they coincide, and the
mint-count trie's iterator positioned at the epoch prefix yields a leaf (that
is, some key is at or after the start position in key order), read the stored
count for `epoch ‖ validator` and increment it when present; otherwise the
count restarts at 1.  Finally write `newEpoch ‖ validator → count`, both
epoch and count as big-endian 8-byte values. -/
def updateMintCnt (parentBlockTime currentBlockTime : Int) (validator : Bytes)
    (d : DposContext) : DposContext :=
  let currentMintCntTrie := d.mintCntTrie
  let currentEpoch := goDiv parentBlockTime epochInterval
  let currentEpochBytes := be8 (toU64 currentEpoch)
  let newEpoch := goDiv currentBlockTime epochInterval
  let cnt : Nat :=
    if currentEpoch = newEpoch then
      if currentMintCntTrie.entries.any (fun e => lexLe currentEpochBytes e.1) then
        match currentMintCntTrie.get (currentEpochBytes ++ validator) with
        | some cntBytes => beDecode cntBytes + 1
        | none => 1
      else 1
    else 1
  let newEpochBytes := be8 (toU64 newEpoch)
  { d with mintCntTrie := d.mintCntTrie.update (newEpochBytes ++ validator) (be8 cnt) }

/-- A concrete 20-byte address whose bytes all equal `b`. -/
def mkAddr (b : Nat) : Bytes := List.replicate 20 b

instance (d : DposContext) : Decidable (VoteInv d) := by
  unfold VoteInv
  infer_instance

instance exceptDecEq {e a : Type} [DecidableEq e] [DecidableEq a] :
    DecidableEq (Except e a) := fun x y =>
  match x, y with
  | .error e1, .error e2 =>
    if h : e1 = e2 then isTrue (by rw [h]) else isFalse (fun hh => h (Except.error.inj hh))
  | .error _, .ok _ => isFalse (fun hh => Except.noConfusion hh)
  | .ok _, .error _ => isFalse (fun hh => Except.noConfusion hh)
  | .ok a1, .ok a2 =>
    if h : a1 = a2 then isTrue (by rw [h]) else isFalse (fun hh => h (Except.ok.inj hh))

theorem lookupKey_eq_none_iff (l : List Entry) (k : Bytes) :
    lookupKey l k = none ↔ ∀ e ∈ l, e.1 ≠ k := by
  induction l with
  | nil => simp [lookupKey]
  | cons e tl ih =>
    constructor
    · intro h e' he'
      by_cases hek : e.1 = k
      · simp [lookupKey, hek] at h
      · rcases List.mem_cons.mp he' with rfl | hmem
        · exact hek
        · rw [lookupKey, if_neg hek] at h
          exact (ih.mp h) e' hmem
    · intro h
      have hek : e.1 ≠ k := h e (List.mem_cons_self e tl)
      rw [lookupKey, if_neg hek]
      exact ih.mpr (fun e' he' => h e' (List.mem_cons_of_mem e he'))

theorem lookupKey_mem {l : List Entry} {k v : Bytes} (h : lookupKey l k = some v) :
    (k, v) ∈ l := by
  induction l with
  | nil => simp [lookupKey] at h
  | cons e tl ih =>
    rw [lookupKey] at h
    by_cases hek : e.1 = k
    · rw [if_pos hek] at h
      have hv : e.2 = v := Option.some.inj h
      have he : e = (k, v) := by
        cases e
        simp only [Prod.mk.injEq]
        exact ⟨hek, hv⟩
      exact he ▸ List.mem_cons_self e tl
    · rw [if_neg hek] at h
      exact List.mem_cons_of_mem e (ih h)

theorem lookupKey_of_mem_nodup {l : List Entry} {k v : Bytes}
    (hnd : (l.map Prod.fst).Nodup) (hmem : (k, v) ∈ l) : lookupKey l k = some v := by
  induction l with
  | nil => simp at hmem
  | cons e tl ih =>
    rw [List.map_cons, List.nodup_cons] at hnd
    rcases List.mem_cons.mp hmem with heq | hmem'
    · rw [lookupKey, if_pos (by rw [← heq])]
      rw [← heq]
    · have hk : k ∈ tl.map Prod.fst := List.mem_map.mpr ⟨(k, v), hmem', rfl⟩
      have hek : e.1 ≠ k := fun h => hnd.1 (h ▸ hk)
      rw [lookupKey, if_neg hek]
      exact ih hnd.2 hmem'

theorem lookupKey_filter_ne {l : List Entry} {k k' : Bytes} (hne : k' ≠ k) :
    lookupKey (l.filter (fun e => decide (e.1 ≠ k))) k' = lookupKey l k' := by
  induction l with
  | nil => rfl
  | cons e tl ih =>
    by_cases hek : e.1 = k
    · rw [List.filter_cons_of_neg (by simp [hek])]
      rw [ih, lookupKey, if_neg (fun h : e.1 = k' => hne (h ▸ hek))]
    · rw [List.filter_cons_of_pos (by simp [hek])]
      rw [lookupKey, lookupKey]
      by_cases hek' : e.1 = k'
      · rw [if_pos hek', if_pos hek']
      · rw [if_neg hek', if_neg hek', ih]

theorem lookupKey_filter_self (l : List Entry) (k : Bytes) :
    lookupKey (l.filter (fun e => decide (e.1 ≠ k))) k = none := by
  rw [lookupKey_eq_none_iff]
  intro e he
  exact of_decide_eq_true (List.mem_filter.mp he).2

theorem Trie.get_insert_self (t : Trie) (k v : Bytes) : (t.insert k v).get k = some v := by
  rw [Trie.insert, Trie.get, lookupKey, if_pos rfl]

theorem Trie.get_insert_ne (t : Trie) {k k' : Bytes} (v : Bytes) (h : k' ≠ k) :
    (t.insert k v).get k' = t.get k' := by
  rw [Trie.insert, Trie.get, lookupKey, if_neg (fun he => h he.symm)]
  exact lookupKey_filter_ne h

theorem Trie.get_erase_self (t : Trie) (k : Bytes) : (t.eraseKey k).get k = none :=
  lookupKey_filter_self t.entries k

theorem Trie.get_erase_ne (t : Trie) {k k' : Bytes} (h : k' ≠ k) :
    (t.eraseKey k).get k' = t.get k' :=
  lookupKey_filter_ne h

theorem Trie.get_erase_none (t : Trie) {k : Bytes} (k' : Bytes) (h : t.get k = none) :
    (t.eraseKey k').get k = none := by
  by_cases hk : k = k'
  · exact hk ▸ t.get_erase_self k
  · rw [Trie.get_erase_ne t hk]
    exact h

theorem Trie.eraseKey_of_get_none (t : Trie) {k : Bytes} (h : t.get k = none) :
    t.eraseKey k = t := by
  rw [Trie.eraseKey]
  have : t.entries.filter (fun e => decide (e.1 ≠ k)) = t.entries := by
    rw [List.filter_eq_self]
    intro e he
    exact decide_eq_true ((lookupKey_eq_none_iff t.entries k).mp h e he)
  rw [this]

theorem Trie.update_of_ne_nil (t : Trie) {k v : Bytes} (h : v ≠ []) :
    t.update k v = t.insert k v := by
  rw [Trie.update, if_neg h]

theorem ne_nil_of_len20 {l : Bytes} (h : l.length = 20) : l ≠ [] := by
  intro hn
  rw [hn] at h
  simp at h

theorem keys_filter_nodup {l : List Entry} (p : Entry → Bool)
    (h : (l.map Prod.fst).Nodup) : ((l.filter p).map Prod.fst).Nodup :=
  ((l.filter_sublist).map Prod.fst).nodup h

theorem not_mem_keys_filter_self (l : List Entry) (k : Bytes) :
    k ∉ (l.filter (fun e => decide (e.1 ≠ k))).map Prod.fst := by
  intro hk
  obtain ⟨e, he, hke⟩ := List.mem_map.mp hk
  exact of_decide_eq_true (List.mem_filter.mp he).2 hke

theorem mem_filter_entries {l : List Entry} {k : Bytes} {e : Entry} :
    e ∈ l.filter (fun e => decide (e.1 ≠ k)) ↔ e ∈ l ∧ e.1 ≠ k := by
  rw [List.mem_filter]
  simp

theorem pairsM_filter_eraseKey (f : Entry → Bytes × Bytes)
    (hf : ∀ e1 e2 : Entry, f e1 = f e2 → e1.1 = e2.1) :
    ∀ (l : List Entry) (k val : Bytes), (l.map Prod.fst).Nodup → (k, val) ∈ l →
      (((l.filter (fun e => decide (e.1 ≠ k))).map f : List (Bytes × Bytes)) :
          Multiset (Bytes × Bytes)) =
        ((l.map f : List (Bytes × Bytes)) : Multiset (Bytes × Bytes)).erase (f (k, val)) := by
  intro l
  induction l with
  | nil =>
    intro k val _ hmem
    simp at hmem
  | cons e tl ih =>
    intro k val hnd hmem
    rw [List.map_cons] at hnd
    rw [List.nodup_cons] at hnd
    rcases List.mem_cons.mp hmem with heq | hmem'
    · have hkey : e.1 = k := by rw [← heq]
      rw [List.filter_cons_of_neg (by simp [hkey])]
      have hall : tl.filter (fun e => decide (e.1 ≠ k)) = tl := by
        rw [List.filter_eq_self]
        intro x hx
        refine decide_eq_true (fun hxk => hnd.1 ?_)
        rw [hkey, ← hxk]
        exact List.mem_map.mpr ⟨x, hx, rfl⟩
      rw [hall, List.map_cons, ← Multiset.cons_coe, ← heq, Multiset.erase_cons_head]
    · have hk : k ∈ tl.map Prod.fst := List.mem_map.mpr ⟨(k, val), hmem', rfl⟩
      have hek : e.1 ≠ k := fun h => hnd.1 (h ▸ hk)
      rw [List.filter_cons_of_pos (by simp [hek])]
      rw [List.map_cons, List.map_cons, ← Multiset.cons_coe, ← Multiset.cons_coe]
      have hfe : f e ≠ f (k, val) := fun h => hek (hf e (k, val) h)
      rw [Multiset.erase_cons_tail _ hfe, ih k val hnd.2 hmem']

theorem pairD_key_inj : ∀ e1 e2 : Entry, pairD e1 = pairD e2 → e1.1 = e2.1 := by
  intro e1 e2 h
  rw [pairD, pairD, Prod.mk.injEq] at h
  calc e1.1 = e1.1.take 20 ++ e1.1.drop 20 := (List.take_append_drop 20 e1.1).symm
    _ = e2.1.take 20 ++ e2.1.drop 20 := by rw [h.1, h.2]
    _ = e2.1 := List.take_append_drop 20 e2.1

theorem pairV_key_inj : ∀ e1 e2 : Entry, pairV e1 = pairV e2 → e1.1 = e2.1 := by
  intro e1 e2 h
  rw [pairV, pairV, Prod.mk.injEq] at h
  exact h.2

theorem pairD_append {c v : Bytes} (hc : c.length = 20) :
    pairD (c ++ v, v) = (c, v) := by
  rw [pairD]
  simp only
  rw [List.take_left' hc, List.drop_left' hc]

theorem mem_delegatePairsM {d : DposContext} {x y : Bytes} :
    (x, y) ∈ delegatePairsM d ↔ ∃ e ∈ d.delegateTrie.entries, pairD e = (x, y) := by
  rw [delegatePairsM, Multiset.mem_coe]
  exact List.mem_map

theorem mem_votePairsM {d : DposContext} {x y : Bytes} :
    (x, y) ∈ votePairsM d ↔ (y, x) ∈ d.voteTrie.entries := by
  rw [votePairsM, Multiset.mem_coe, List.mem_map]
  constructor
  · rintro ⟨⟨a, b⟩, he, hp⟩
    rw [pairV, Prod.mk.injEq] at hp
    dsimp only at hp
    obtain ⟨hb, ha⟩ := hp
    rw [← ha, ← hb]
    exact he
  · intro hmem
    exact ⟨(y, x), hmem, rfl⟩

theorem voteInv_delegate_mem_of_vote {d : DposContext} (hinv : VoteInv d) {v o : Bytes}
    (h : d.voteTrie.get v = some o) : (o ++ v, v) ∈ d.delegateTrie.entries := by
  obtain ⟨hdS, _, _, _, hpairs⟩ := hinv
  have hmemV : (v, o) ∈ d.voteTrie.entries := lookupKey_mem h
  have hpV : (o, v) ∈ votePairsM d := mem_votePairsM.mpr hmemV
  have hpD : (o, v) ∈ delegatePairsM d := by rw [hpairs]; exact hpV
  obtain ⟨e, he, hp⟩ := mem_delegatePairsM.mp hpD
  obtain ⟨hlen, hsplit, _⟩ := hdS e he
  rw [pairD, Prod.mk.injEq] at hp
  have hdrop : e.1.drop 20 = e.2 := by
    conv_lhs => rw [hsplit]
    exact List.drop_left' hlen
  have he2 : e.2 = v := by rw [← hdrop, hp.2]
  have he1 : e.1 = o ++ v := by
    conv_lhs => rw [hsplit]
    rw [hp.1, he2]
  have hee : e = (o ++ v, v) := by
    cases e
    dsimp only at he1 he2
    rw [he1, he2]
  rw [← hee]
  exact he

theorem voteInv_vote_of_delegate {d : DposContext} (hinv : VoteInv d) {c v w : Bytes}
    (hc : c.length = 20) (h : d.delegateTrie.get (c ++ v) = some w) :
    w = v ∧ d.voteTrie.get v = some c := by
  obtain ⟨hdS, _, _, hvN, hpairs⟩ := hinv
  have hmemD : (c ++ v, w) ∈ d.delegateTrie.entries := lookupKey_mem h
  obtain ⟨hlen, hsplit, _⟩ := hdS _ hmemD
  dsimp only at hlen hsplit
  have htake : (c ++ v).take 20 = c := List.take_left' hc
  rw [htake] at hsplit
  refine ⟨((List.append_inj hsplit rfl).2).symm, ?_⟩
  have hpD : (c, v) ∈ delegatePairsM d := by
    refine mem_delegatePairsM.mpr ⟨(c ++ v, w), hmemD, ?_⟩
    rw [pairD]
    dsimp only
    rw [htake, List.drop_left' hc]
  have hpV : (c, v) ∈ votePairsM d := by rw [← hpairs]; exact hpD
  exact lookupKey_of_mem_nodup hvN (mem_votePairsM.mp hpV)

theorem voteInv_delegate_none_of_vote_none {d : DposContext} (hinv : VoteInv d)
    {c v : Bytes} (hc : c.length = 20) (h : d.voteTrie.get v = none) :
    d.delegateTrie.get (c ++ v) = none := by
  cases hg : d.delegateTrie.get (c ++ v) with
  | none => rfl
  | some w =>
    have := (voteInv_vote_of_delegate hinv hc hg).2
    rw [h] at this
    exact absurd this (by simp)

theorem Delegate_eq_error {d : DposContext} {v c : Bytes}
    (h : d.candidateTrie.get c = none) :
    d.Delegate v c = .error "invalid candidate to delegate" := by
  simp only [DposContext.Delegate, h]

theorem Delegate_eq_ok_of_vote_none {d : DposContext} {v c cv : Bytes}
    (h : d.candidateTrie.get c = some cv) (hold : d.voteTrie.get v = none) :
    d.Delegate v c = .ok { d with delegateTrie := d.delegateTrie.update (c ++ v) v,
                                  voteTrie := d.voteTrie.update v c } := by
  simp only [DposContext.Delegate, h, hold]

theorem Delegate_eq_ok_of_vote_some {d : DposContext} {v c cv o : Bytes}
    (h : d.candidateTrie.get c = some cv) (hold : d.voteTrie.get v = some o) :
    d.Delegate v c =
      .ok { d with
              delegateTrie := (d.delegateTrie.eraseKey (o ++ v)).update (c ++ v) v,
              voteTrie := d.voteTrie.update v c } := by
  simp only [DposContext.Delegate, h, hold]

theorem UnDelegate_eq_error_cand {d : DposContext} {v c : Bytes}
    (h : d.candidateTrie.get c = none) :
    d.UnDelegate v c = .error "invalid candidate to undelegate" := by
  simp only [DposContext.UnDelegate, h]

theorem UnDelegate_eq_error_mismatch {d : DposContext} {v c cv : Bytes}
    (h : d.candidateTrie.get c = some cv)
    (hne : c ≠ (d.voteTrie.get v).getD []) :
    d.UnDelegate v c = .error "mismatch candidate to undelegate" := by
  simp only [DposContext.UnDelegate, h, if_neg hne]

theorem UnDelegate_eq_ok {d : DposContext} {v c cv : Bytes}
    (h : d.candidateTrie.get c = some cv)
    (heq : c = (d.voteTrie.get v).getD []) :
    d.UnDelegate v c = .ok { d with
        delegateTrie := d.delegateTrie.eraseKey (c ++ v),
        voteTrie := d.voteTrie.eraseKey v } := by
  simp only [DposContext.UnDelegate, h, if_pos heq]

theorem voteInv_erase_pair {d : DposContext} (hinv : VoteInv d) {c v : Bytes}
    (hc : c.length = 20) (hmemD : (c ++ v, v) ∈ d.delegateTrie.entries)
    (hmemV : (v, c) ∈ d.voteTrie.entries) :
    VoteInv { d with delegateTrie := d.delegateTrie.eraseKey (c ++ v),
                     voteTrie := d.voteTrie.eraseKey v } := by
  obtain ⟨hdS, hvS, hdN, hvN, hpairs⟩ := hinv
  refine ⟨?_, ?_, ?_, ?_, ?_⟩
  · intro e he
    exact hdS e (List.mem_filter.mp he).1
  · intro e he
    exact hvS e (List.mem_filter.mp he).1
  · exact keys_filter_nodup _ hdN
  · exact keys_filter_nodup _ hvN
  · show (((d.delegateTrie.entries.filter (fun e => decide (e.1 ≠ c ++ v))).map pairD :
        List (Bytes × Bytes)) : Multiset (Bytes × Bytes)) =
      (((d.voteTrie.entries.filter (fun e => decide (e.1 ≠ v))).map pairV :
        List (Bytes × Bytes)) : Multiset (Bytes × Bytes))
    rw [pairsM_filter_eraseKey pairD pairD_key_inj _ _ _ hdN hmemD,
        pairsM_filter_eraseKey pairV pairV_key_inj _ _ _ hvN hmemV,
        pairD_append hc]
    show (delegatePairsM d).erase (c, v) = (votePairsM d).erase (c, v)
    rw [hpairs]

theorem voteInv_delegate_step {d : DposContext} (hinv : VoteInv d) {v c : Bytes}
    (hv : v.length = 20) (hc : c.length = 20) :
    VoteInv (d.step (.delegateOp v c)) := by
  obtain ⟨hdS, hvS, hdN, hvN, hpairs⟩ := hinv
  have hvnil : v ≠ [] := ne_nil_of_len20 hv
  have hcnil : c ≠ [] := ne_nil_of_len20 hc
  rw [DposContext.step]
  cases hcand : d.candidateTrie.get c with
  | none =>
    rw [Delegate_eq_error hcand]
    exact ⟨hdS, hvS, hdN, hvN, hpairs⟩
  | some cv =>
    cases hold : d.voteTrie.get v with
    | none =>
      rw [Delegate_eq_ok_of_vote_none hcand hold]
      have hdget : d.delegateTrie.get (c ++ v) = none :=
        voteInv_delegate_none_of_vote_none ⟨hdS, hvS, hdN, hvN, hpairs⟩ hc hold
      have hfilterD : d.delegateTrie.entries.filter (fun e => decide (e.1 ≠ c ++ v)) =
          d.delegateTrie.entries :=
        congrArg Trie.entries (d.delegateTrie.eraseKey_of_get_none hdget)
      have hfilterV : d.voteTrie.entries.filter (fun e => decide (e.1 ≠ v)) =
          d.voteTrie.entries :=
        congrArg Trie.entries (d.voteTrie.eraseKey_of_get_none hold)
      rw [Trie.update_of_ne_nil _ hvnil, Trie.update_of_ne_nil _ hcnil]
      refine ⟨?_, ?_, ?_, ?_, ?_⟩
      · intro e he
        rcases List.mem_cons.mp he with rfl | hmem
        · refine ⟨?_, ?_, hv⟩
          · dsimp only
            rw [List.take_left' hc]
            exact hc
          · dsimp only
            rw [List.take_left' hc]
        · exact hdS e (List.mem_filter.mp hmem).1
      · intro e he
        rcases List.mem_cons.mp he with rfl | hmem
        · exact ⟨hv, hc⟩
        · exact hvS e (List.mem_filter.mp hmem).1
      · show ((((c ++ v, v) :: d.delegateTrie.entries.filter
            (fun e => decide (e.1 ≠ c ++ v))).map Prod.fst)).Nodup
        rw [List.map_cons]
        exact List.nodup_cons.mpr ⟨not_mem_keys_filter_self _ _, keys_filter_nodup _ hdN⟩
      · show ((((v, c) :: d.voteTrie.entries.filter
            (fun e => decide (e.1 ≠ v))).map Prod.fst)).Nodup
        rw [List.map_cons]
        exact List.nodup_cons.mpr ⟨not_mem_keys_filter_self _ _, keys_filter_nodup _ hvN⟩
      · show ((((c ++ v, v) :: d.delegateTrie.entries.filter
            (fun e => decide (e.1 ≠ c ++ v))).map pairD : List (Bytes × Bytes)) :
              Multiset (Bytes × Bytes)) =
          ((((v, c) :: d.voteTrie.entries.filter (fun e => decide (e.1 ≠ v))).map pairV :
            List (Bytes × Bytes)) : Multiset (Bytes × Bytes))
        rw [hfilterD, hfilterV, List.map_cons, List.map_cons,
            ← Multiset.cons_coe, ← Multiset.cons_coe, pairD_append hc]
        show (c, v) ::ₘ delegatePairsM d = (c, v) ::ₘ votePairsM d
        rw [hpairs]
    | some o =>
      rw [Delegate_eq_ok_of_vote_some hcand hold]
      have hmemVo : (v, o) ∈ d.voteTrie.entries := lookupKey_mem hold
      have ho : o.length = 20 := (hvS _ hmemVo).2
      have hmemD : (o ++ v, v) ∈ d.delegateTrie.entries :=
        voteInv_delegate_mem_of_vote ⟨hdS, hvS, hdN, hvN, hpairs⟩ hold
      have houter : ∀ e ∈ d.delegateTrie.entries.filter (fun e => decide (e.1 ≠ o ++ v)),
          (fun e : Entry => decide (e.1 ≠ c ++ v)) e = true := by
        intro e he
        obtain ⟨heM, heNe⟩ := mem_filter_entries.mp he
        refine decide_eq_true (fun heq => ?_)
        by_cases hco : c = o
        · exact heNe (by rw [heq, hco])
        · have hmemE : (c ++ v, e.2) ∈ d.delegateTrie.entries := by
            rw [← heq]
            exact (by cases e; exact heM)
          have hsome : d.delegateTrie.get (c ++ v) = some e.2 :=
            lookupKey_of_mem_nodup hdN hmemE
          have hvv := (voteInv_vote_of_delegate ⟨hdS, hvS, hdN, hvN, hpairs⟩ hc hsome).2
          rw [hold] at hvv
          exact hco (Option.some.inj hvv).symm
      have hfid : (d.delegateTrie.entries.filter (fun e => decide (e.1 ≠ o ++ v))).filter
          (fun e => decide (e.1 ≠ c ++ v)) =
          d.delegateTrie.entries.filter (fun e => decide (e.1 ≠ o ++ v)) :=
        List.filter_eq_self.mpr houter
      rw [Trie.update_of_ne_nil _ hvnil, Trie.update_of_ne_nil _ hcnil]
      refine ⟨?_, ?_, ?_, ?_, ?_⟩
      · intro e he
        rcases List.mem_cons.mp he with rfl | hmem
        · refine ⟨?_, ?_, hv⟩
          · dsimp only
            rw [List.take_left' hc]
            exact hc
          · dsimp only
            rw [List.take_left' hc]
        · exact hdS e (List.mem_filter.mp (List.mem_filter.mp hmem).1).1
      · intro e he
        rcases List.mem_cons.mp he with rfl | hmem
        · exact ⟨hv, hc⟩
        · exact hvS e (List.mem_filter.mp hmem).1
      · show ((((c ++ v, v) :: ((d.delegateTrie.entries.filter
            (fun e => decide (e.1 ≠ o ++ v))).filter
              (fun e => decide (e.1 ≠ c ++ v)))).map Prod.fst)).Nodup
        rw [List.map_cons]
        refine List.nodup_cons.mpr ⟨not_mem_keys_filter_self _ _, ?_⟩
        exact keys_filter_nodup _ (keys_filter_nodup _ hdN)
      · show ((((v, c) :: d.voteTrie.entries.filter
            (fun e => decide (e.1 ≠ v))).map Prod.fst)).Nodup
        rw [List.map_cons]
        exact List.nodup_cons.mpr ⟨not_mem_keys_filter_self _ _, keys_filter_nodup _ hvN⟩
      · show ((((c ++ v, v) :: ((d.delegateTrie.entries.filter
            (fun e => decide (e.1 ≠ o ++ v))).filter
              (fun e => decide (e.1 ≠ c ++ v)))).map pairD : List (Bytes × Bytes)) :
              Multiset (Bytes × Bytes)) =
          ((((v, c) :: d.voteTrie.entries.filter (fun e => decide (e.1 ≠ v))).map pairV :
            List (Bytes × Bytes)) : Multiset (Bytes × Bytes))
        rw [hfid, List.map_cons, List.map_cons, ← Multiset.cons_coe, ← Multiset.cons_coe,
            pairD_append hc,
            pairsM_filter_eraseKey pairD pairD_key_inj _ _ _ hdN hmemD,
            pairsM_filter_eraseKey pairV pairV_key_inj _ _ _ hvN hmemVo,
            pairD_append ho]
        show (c, v) ::ₘ (delegatePairsM d).erase (o, v) =
          (c, v) ::ₘ (votePairsM d).erase (o, v)
        rw [hpairs]

theorem voteInv_undelegate_step {d : DposContext} (hinv : VoteInv d) {v c : Bytes}
    (_hv : v.length = 20) (hc : c.length = 20) :
    VoteInv (d.step (.unDelegate v c)) := by
  obtain ⟨hdS, hvS, hdN, hvN, hpairs⟩ := hinv
  rw [DposContext.step]
  cases hcand : d.candidateTrie.get c with
  | none =>
    rw [UnDelegate_eq_error_cand hcand]
    exact ⟨hdS, hvS, hdN, hvN, hpairs⟩
  | some cv =>
    by_cases hmatch : c = (d.voteTrie.get v).getD []
    · rw [UnDelegate_eq_ok hcand hmatch]
      cases hold : d.voteTrie.get v with
      | none =>
        rw [hold, Option.getD_none] at hmatch
        exact absurd hmatch (ne_nil_of_len20 hc)
      | some o =>
        rw [hold, Option.getD_some] at hmatch
        subst hmatch
        have hmemVo : (v, c) ∈ d.voteTrie.entries := lookupKey_mem hold
        have hmemD : (c ++ v, v) ∈ d.delegateTrie.entries :=
          voteInv_delegate_mem_of_vote ⟨hdS, hvS, hdN, hvN, hpairs⟩ hold
        exact voteInv_erase_pair ⟨hdS, hvS, hdN, hvN, hpairs⟩ hc hmemD hmemVo
    · rw [UnDelegate_eq_error_mismatch hcand hmatch]
      exact ⟨hdS, hvS, hdN, hvN, hpairs⟩

theorem voteInv_kickStep {c : Bytes} (hc : c.length = 20) {acc : DposContext}
    (hinv : VoteInv acc) (v : Bytes) : VoteInv (kickStep c acc v) := by
  obtain ⟨hdS, hvS, hdN, hvN, hpairs⟩ := hinv
  simp only [kickStep]
  cases hg : acc.delegateTrie.get (c ++ v) with
  | none =>
    have hcond : ¬ acc.voteTrie.get v = some c := by
      intro hvote
      have hmemD := voteInv_delegate_mem_of_vote ⟨hdS, hvS, hdN, hvN, hpairs⟩ hvote
      have hsome : acc.delegateTrie.get (c ++ v) = some v :=
        lookupKey_of_mem_nodup hdN hmemD
      rw [hg] at hsome
      exact Option.noConfusion hsome
    rw [if_neg hcond, acc.delegateTrie.eraseKey_of_get_none hg]
    exact ⟨hdS, hvS, hdN, hvN, hpairs⟩
  | some w =>
    have hres := voteInv_vote_of_delegate ⟨hdS, hvS, hdN, hvN, hpairs⟩ hc hg
    rw [hres.1] at hg
    rw [if_pos hres.2]
    have hmemD : (c ++ v, v) ∈ acc.delegateTrie.entries := lookupKey_mem hg
    have hmemV : (v, c) ∈ acc.voteTrie.entries := lookupKey_mem hres.2
    exact voteInv_erase_pair ⟨hdS, hvS, hdN, hvN, hpairs⟩ hc hmemD hmemV

theorem foldl_preserves {α : Type} {β : Type} (f : α → β → α) (P : α → Prop)
    (h : ∀ a b, P a → P (f a b)) : ∀ (l : List β) (a : α), P a → P (l.foldl f a) := by
  intro l
  induction l with
  | nil => intro a ha; exact ha
  | cons b tl ih => intro a ha; exact ih _ (h a b ha)

theorem voteInv_kickout {d : DposContext} (hinv : VoteInv d) {c : Bytes}
    (hc : c.length = 20) : VoteInv (d.KickoutCandidate c) := by
  rw [DposContext.KickoutCandidate]
  refine foldl_preserves _ VoteInv (fun a v ha => voteInv_kickStep hc ha v) _ _ ?_
  exact hinv

theorem voteInv_step {d : DposContext} (hinv : VoteInv d) {op : Op} (hop : op.wf) :
    VoteInv (d.step op) := by
  cases op with
  | becomeCandidate c => exact hinv
  | kickoutCandidate c => exact voteInv_kickout hinv hop
  | delegateOp v c => exact voteInv_delegate_step hinv hop.1 hop.2
  | unDelegate v c => exact voteInv_undelegate_step hinv hop.1 hop.2

theorem voteInv_run :
    ∀ (ops : List Op) (d : DposContext), VoteInv d → (∀ op ∈ ops, op.wf) →
      VoteInv (d.run ops) := by
  intro ops
  induction ops with
  | nil => intro d hinv _; exact hinv
  | cons op tl ih =>
    intro d hinv hwf
    exact ih _ (voteInv_step hinv (hwf op (List.mem_cons_self op tl)))
      (fun o ho => hwf o (List.mem_cons_of_mem op ho))

theorem voteInv_new : VoteInv NewDposContext := by
  refine ⟨?_, ?_, ?_, ?_, ?_⟩ <;>
    simp [NewDposContext, emptyTrie, delegatePairsM, votePairsM]

theorem kickStep_candidate (c : Bytes) (acc : DposContext) (v : Bytes) :
    (kickStep c acc v).candidateTrie = acc.candidateTrie := by
  simp only [kickStep]
  split <;> rfl

theorem foldl_kickStep_candidate (c : Bytes) :
    ∀ (l : List Bytes) (acc : DposContext),
      (l.foldl (kickStep c) acc).candidateTrie = acc.candidateTrie := by
  intro l
  induction l with
  | nil => intro acc; rfl
  | cons v tl ih => intro acc; rw [List.foldl_cons, ih, kickStep_candidate]

theorem kickStep_delegate_get_none {c : Bytes} {acc : DposContext} {k : Bytes}
    (h : acc.delegateTrie.get k = none) (v : Bytes) :
    (kickStep c acc v).delegateTrie.get k = none := by
  simp only [kickStep]
  split
  · exact acc.delegateTrie.get_erase_none _ h
  · exact acc.delegateTrie.get_erase_none _ h

theorem foldl_kickStep_delegate_none (c : Bytes) :
    ∀ (l : List Bytes) (acc : DposContext) (k : Bytes),
      acc.delegateTrie.get k = none →
      ((l.foldl (kickStep c) acc)).delegateTrie.get k = none := by
  intro l
  induction l with
  | nil => intro acc k h; exact h
  | cons v tl ih =>
    intro acc k h
    rw [List.foldl_cons]
    exact ih _ _ (kickStep_delegate_get_none h v)

theorem foldl_kickStep_delegate_erases (c : Bytes) :
    ∀ (l : List Bytes) (acc : DposContext) (v : Bytes), v ∈ l →
      ((l.foldl (kickStep c) acc)).delegateTrie.get (c ++ v) = none := by
  intro l
  induction l with
  | nil => intro acc v h; simp at h
  | cons w tl ih =>
    intro acc v hmem
    rw [List.foldl_cons]
    rcases List.mem_cons.mp hmem with rfl | hmem'
    · refine foldl_kickStep_delegate_none c tl _ _ ?_
      simp only [kickStep]
      split
      · exact acc.delegateTrie.get_erase_self _
      · exact acc.delegateTrie.get_erase_self _
    · exact ih _ _ hmem'

theorem kickStep_vote_get_none {c : Bytes} {acc : DposContext} {w : Bytes}
    (h : acc.voteTrie.get w = none) (v : Bytes) :
    (kickStep c acc v).voteTrie.get w = none := by
  simp only [kickStep]
  split
  · exact acc.voteTrie.get_erase_none _ h
  · exact h

theorem foldl_kickStep_vote_none (c : Bytes) :
    ∀ (l : List Bytes) (acc : DposContext) (w : Bytes),
      acc.voteTrie.get w = none →
      ((l.foldl (kickStep c) acc)).voteTrie.get w = none := by
  intro l
  induction l with
  | nil => intro acc w h; exact h
  | cons v tl ih =>
    intro acc w h
    rw [List.foldl_cons]
    exact ih _ _ (kickStep_vote_get_none h v)

theorem foldl_kickStep_vote_clears (c : Bytes) :
    ∀ (l : List Bytes) (acc : DposContext) (w : Bytes), w ∈ l →
      (acc.voteTrie.get w = some c ∨ acc.voteTrie.get w = none) →
      ((l.foldl (kickStep c) acc)).voteTrie.get w = none := by
  intro l
  induction l with
  | nil => intro acc w h _; simp at h
  | cons v tl ih =>
    intro acc w hmem hdisj
    rw [List.foldl_cons]
    by_cases hwv : w = v
    · subst hwv
      refine foldl_kickStep_vote_none c tl _ _ ?_
      simp only [kickStep]
      split
      · exact acc.voteTrie.get_erase_self _
      · next hcond =>
        rcases hdisj with hsome | hnone
        · exact absurd hsome hcond
        · exact hnone
    · rcases List.mem_cons.mp hmem with heq | hmem'
      · exact absurd heq hwv
      · refine ih _ _ hmem' ?_
        simp only [kickStep]
        split
        · rcases hdisj with h | h
          · exact Or.inl (by rw [Trie.get_erase_ne _ hwv]; exact h)
          · exact Or.inr (by rw [Trie.get_erase_ne _ hwv]; exact h)
        · exact hdisj

theorem kickout_candidate_none (d : DposContext) (c : Bytes) :
    (d.KickoutCandidate c).candidateTrie.get c = none := by
  rw [DposContext.KickoutCandidate]
  rw [foldl_kickStep_candidate]
  exact d.candidateTrie.get_erase_self c

theorem kickout_delegate_none {d : DposContext} (hinv : VoteInv d) {c : Bytes}
    (hc : c.length = 20) (k : Bytes) (hpre : c <+: k) :
    (d.KickoutCandidate c).delegateTrie.get k = none := by
  obtain ⟨hdS, hvS, hdN, hvN, hpairs⟩ := hinv
  rw [DposContext.KickoutCandidate]
  cases hg : d.delegateTrie.get k with
  | none => exact foldl_kickStep_delegate_none c _ _ _ hg
  | some val =>
    have hmemk : (k, val) ∈ d.delegateTrie.entries := lookupKey_mem hg
    obtain ⟨hlen, hsplit, hvallen⟩ := hdS _ hmemk
    dsimp only at hlen hsplit
    have htake : k.take 20 = c := by
      have hpt := List.prefix_iff_eq_take.mp hpre
      rw [hc] at hpt
      exact hpt.symm
    rw [htake] at hsplit
    have hmem' : val ∈ (d.delegateTrie.entries.filter
        (fun e => c.isPrefixOf e.1)).map Prod.snd := by
      refine List.mem_map.mpr ⟨(k, val), ?_, rfl⟩
      refine List.mem_filter.mpr ⟨hmemk, ?_⟩
      rw [List.isPrefixOf_iff_prefix]
      exact hpre
    rw [hsplit]
    exact foldl_kickStep_delegate_erases c _ _ _ hmem'

theorem kickout_vote_none {d : DposContext} (hinv : VoteInv d) {c : Bytes}
    (_hc : c.length = 20) (w : Bytes) (hw : d.voteTrie.get w = some c) :
    (d.KickoutCandidate c).voteTrie.get w = none := by
  have hmemD : (c ++ w, w) ∈ d.delegateTrie.entries :=
    voteInv_delegate_mem_of_vote hinv hw
  rw [DposContext.KickoutCandidate]
  have hmem' : w ∈ (d.delegateTrie.entries.filter
      (fun e => c.isPrefixOf e.1)).map Prod.snd := by
    refine List.mem_map.mpr ⟨(c ++ w, w), ?_, rfl⟩
    refine List.mem_filter.mpr ⟨hmemD, ?_⟩
    rw [List.isPrefixOf_iff_prefix]
    exact List.prefix_append c w
  exact foldl_kickStep_vote_clears c _ _ _ hmem' (Or.inl hw)

theorem countP_key_le_one {l : List Entry} (h : (l.map Prod.fst).Nodup) (v : Bytes) :
    l.countP (fun e => decide (e.1 = v)) ≤ 1 := by
  induction l with
  | nil => simp
  | cons e tl ih =>
    rw [List.map_cons, List.nodup_cons] at h
    by_cases hev : e.1 = v
    · have hz : tl.countP (fun e => decide (e.1 = v)) = 0 := by
        rw [List.countP_eq_zero]
        intro e' he'
        simp only [decide_eq_true_eq]
        intro hx
        exact h.1 (by rw [hev, ← hx]; exact List.mem_map.mpr ⟨e', he', rfl⟩)
      have hp : decide (e.1 = v) = true := decide_eq_true hev
      rw [List.countP_cons, hz, hp]
      simp
    · have hp : decide (e.1 = v) = false := by
        simp only [decide_eq_false_iff_not]
        exact hev
      rw [List.countP_cons, hp]
      simpa using ih h.2

theorem be8_ne_nil (n : Nat) : be8 n ≠ [] := by
  rw [be8]
  exact List.cons_ne_nil _ _

theorem lexLe_append_self : ∀ (s t : Bytes), lexLe s (s ++ t) = true := by
  intro s t
  induction s with
  | nil => rfl
  | cons a as ih =>
    rw [List.cons_append, lexLe, ih]
    simp

theorem any_lexLe_of_get_some {t : Trie} {s v x : Bytes} (h : t.get (s ++ v) = some x) :
    t.entries.any (fun e => lexLe s e.1) = true := by
  rw [List.any_eq_true]
  exact ⟨(s ++ v, x), lookupKey_mem h, lexLe_append_self s v⟩

theorem rlpDecodeItems_encode :
    ∀ l : List Bytes,
      rlpDecodeItems l.length (l.map (fun a => a.length :: a)).flatten = .ok l := by
  intro l
  induction l with
  | nil => rfl
  | cons a tl ih =>
    rw [List.map_cons, List.flatten_cons, List.length_cons, List.cons_append,
        rlpDecodeItems, if_neg (by rw [List.length_append]; omega),
        List.take_left' rfl, List.drop_left' rfl, ih]
    rfl

/-- C1: after any finite sequence of BecomeCandidate, KickoutCandidate,
Delegate, and UnDelegate operations starting from an empty DposContext (no
storage errors occur in this model), the multiset of pairs (C, V) such that
the delegate trie contains key C‖V equals the multiset of pairs (vote[V], V)
such that the vote trie contains key V; in particular every voter has at most
one entry in the vote trie. -/
theorem C1_vote_delegate_consistency (ops : List Op) (hwf : ∀ op ∈ ops, op.wf) :
    delegatePairsM (NewDposContext.run ops) = votePairsM (NewDposContext.run ops) ∧
    ∀ v : Bytes,
      (NewDposContext.run ops).voteTrie.entries.countP (fun e => decide (e.1 = v)) ≤ 1 := by
  obtain ⟨_, _, _, hvN, hpairs⟩ := voteInv_run ops NewDposContext voteInv_new hwf
  exact ⟨hpairs, fun v => countP_key_le_one hvN v⟩

/-- C1 witness: the consistency check at a concrete operation sequence that
exercises registration, re-voting, kick-out and un-delegation. -/
theorem C1_vote_delegate_consistency_witness :
    (∀ op ∈ ([Op.becomeCandidate (mkAddr 1), Op.becomeCandidate (mkAddr 2),
        Op.delegateOp (mkAddr 3) (mkAddr 1), Op.delegateOp (mkAddr 3) (mkAddr 2),
        Op.delegateOp (mkAddr 4) (mkAddr 2), Op.kickoutCandidate (mkAddr 2),
        Op.unDelegate (mkAddr 3) (mkAddr 1)] : List Op), op.wf) ∧
    (delegatePairsM (NewDposContext.run
        [Op.becomeCandidate (mkAddr 1), Op.becomeCandidate (mkAddr 2),
         Op.delegateOp (mkAddr 3) (mkAddr 1), Op.delegateOp (mkAddr 3) (mkAddr 2),
         Op.delegateOp (mkAddr 4) (mkAddr 2), Op.kickoutCandidate (mkAddr 2),
         Op.unDelegate (mkAddr 3) (mkAddr 1)]) =
      votePairsM (NewDposContext.run
        [Op.becomeCandidate (mkAddr 1), Op.becomeCandidate (mkAddr 2),
         Op.delegateOp (mkAddr 3) (mkAddr 1), Op.delegateOp (mkAddr 3) (mkAddr 2),
         Op.delegateOp (mkAddr 4) (mkAddr 2), Op.kickoutCandidate (mkAddr 2),
         Op.unDelegate (mkAddr 3) (mkAddr 1)]) ∧
     ∀ v : Bytes,
      (NewDposContext.run
        [Op.becomeCandidate (mkAddr 1), Op.becomeCandidate (mkAddr 2),
         Op.delegateOp (mkAddr 3) (mkAddr 1), Op.delegateOp (mkAddr 3) (mkAddr 2),
         Op.delegateOp (mkAddr 4) (mkAddr 2), Op.kickoutCandidate (mkAddr 2),
         Op.unDelegate (mkAddr 3) (mkAddr 1)]).voteTrie.entries.countP
          (fun e => decide (e.1 = v)) ≤ 1) :=
  ⟨by decide, C1_vote_delegate_consistency _ (by decide)⟩

/-- C2 counterexample: the backing-store flush sequence of `Commit` is not
(epoch, delegate, vote, candidate, mintCnt) — already on a fresh context the
roots are flushed in the order epoch, delegate, candidate, vote, mintCnt
(dpos_context.go lines 347-351). -/
theorem C2_commit_counterexample :
    flushOrder (NewDposContext.Commit).2.2 ≠
      [TrieTag.epoch, TrieTag.delegate, TrieTag.vote, TrieTag.candidate, TrieTag.mintCnt] := by
  decide

/-- C2 (amended): every `Commit` commits the five tries in the fixed order
epoch, delegate, vote, candidate, mintCnt, then flushes the committed roots to
the backing store in the order epoch, delegate, candidate, vote, mintCnt, and
returns the five-root digest built from exactly the committed roots (the roots
of the tries as they were when committed, not re-read). -/
theorem C2_commit_order (d : DposContext) :
    (d.Commit).2.2 =
      [CommitEvent.commitTrie .epoch, CommitEvent.commitTrie .delegate,
       CommitEvent.commitTrie .vote, CommitEvent.commitTrie .candidate,
       CommitEvent.commitTrie .mintCnt,
       CommitEvent.flushRoot .epoch, CommitEvent.flushRoot .delegate,
       CommitEvent.flushRoot .candidate, CommitEvent.flushRoot .vote,
       CommitEvent.flushRoot .mintCnt] ∧
    commitOrder (d.Commit).2.2 =
      [TrieTag.epoch, TrieTag.delegate, TrieTag.vote, TrieTag.candidate, TrieTag.mintCnt] ∧
    flushOrder (d.Commit).2.2 =
      [TrieTag.epoch, TrieTag.delegate, TrieTag.candidate, TrieTag.vote, TrieTag.mintCnt] ∧
    (d.Commit).2.1 =
      { EpochHash := d.epochTrie.hashRoot
        DelegateHash := d.delegateTrie.hashRoot
        CandidateHash := d.candidateTrie.hashRoot
        VoteHash := d.voteTrie.hashRoot
        MintCntHash := d.mintCntTrie.hashRoot } :=
  ⟨rfl, rfl, rfl, rfl⟩

/-- C3 counterexample: with the code's truncated (Go) integer division the
scheduler idempotence law fails at time t = 0 with block interval 10:
`NextSlot(PrevSlot(0)+1) = 10` but `NextSlot(0) = 0`. -/
theorem C3_slot_counterexample :
    (0 : Int) < 10 ∧ NextSlot (PrevSlot 0 10 + 1) 10 ≠ NextSlot 0 10 := by
  decide

/-- C3 (amended): for every time t ≥ 1 and every block interval I > 0,
`NextSlot(PrevSlot(t)+1) = NextSlot(t)`, and whenever t is not a multiple of
I, `PrevSlot(t) ≤ t < NextSlot(t)` (for t ≥ 1 the code's truncated division
agrees with the floor formulas of the spec; at t ≤ 0 they differ and the law
fails, see the counterexample). -/
theorem C3_slot_scheduler (t I : Int) (hI : 0 < I) (ht : 1 ≤ t) :
    NextSlot (PrevSlot t I + 1) I = NextSlot t I ∧
      (¬ I ∣ t → PrevSlot t I ≤ t ∧ t < NextSlot t I) := by
  have hIne : I ≠ 0 := ne_of_gt hI
  have hI0 : (0 : Int) ≤ I := le_of_lt hI
  have h0 : (0 : Int) ≤ t - 1 := by omega
  set q := (t - 1) / I with hq
  set r := (t - 1) % I with hr
  have hqr : I * q + r = t - 1 := Int.ediv_add_emod (t - 1) I
  have hr0 : 0 ≤ r := Int.emod_nonneg (t - 1) hIne
  have hrI : r < I := Int.emod_lt_of_pos (t - 1) hI
  have hq0 : 0 ≤ q := Int.ediv_nonneg h0 hI0
  have hprev : PrevSlot t I = q * I := by
    rw [PrevSlot, goDiv, Int.tdiv_eq_ediv h0 hI0]
  have hnum : t + I - 1 = r + I * (q + 1) := by linarith
  have hnext : NextSlot t I = (q + 1) * I := by
    rw [NextSlot, goDiv, Int.tdiv_eq_ediv (by omega) hI0, hnum,
        Int.add_mul_ediv_left r (q + 1) hIne, Int.ediv_eq_zero_of_lt hr0 hrI]
    ring
  have hprevnext : NextSlot (PrevSlot t I + 1) I = (q + 1) * I := by
    have harg : q * I + 1 + I - 1 = (q + 1) * I := by ring
    rw [hprev, NextSlot, goDiv, harg,
        Int.tdiv_eq_ediv (mul_nonneg (by omega) hI0) hI0, Int.mul_ediv_cancel _ hIne]
  refine ⟨by rw [hprevnext, hnext], fun hdvd => ⟨?_, ?_⟩⟩
  · rw [hprev]
    linarith
  · rw [hnext]
    have hle : t ≤ (q + 1) * I := by linarith
    rcases lt_or_eq_of_le hle with hlt | heq
    · exact hlt
    · exact absurd ⟨q + 1, by rw [heq]; ring⟩ hdvd

/-- C3 witness: the amended scheduler law at t = 25, I = 10 (the spec's S5
values: PrevSlot 25 = 20, NextSlot 25 = 30). -/
theorem C3_slot_scheduler_witness :
    ((0 : Int) < 10 ∧ (1 : Int) ≤ 25) ∧
      (NextSlot (PrevSlot 25 10 + 1) 10 = NextSlot 25 10 ∧
        (¬ (10 : Int) ∣ 25 → PrevSlot 25 10 ≤ 25 ∧ (25 : Int) < NextSlot 25 10)) :=
  ⟨by decide, C3_slot_scheduler 25 10 (by decide) (by decide)⟩

/-- C5: seal verification compares the recovered signer S first against the
scheduler's expected validator E and then against the header's validator
field: S ≠ E is rejected with ErrInvalidBlockValidator; S = E with a spoofed
header validator Y ≠ S is rejected with ErrMismatchSignerAndValidator; and
verification succeeds exactly when S = E and S = header.validator. -/
theorem C5_verify_block_signer (signer validator headerValidator : Bytes) :
    (signer ≠ validator →
      verifyBlockSigner signer validator headerValidator =
        .error .invalidBlockValidator) ∧
    (signer = validator → headerValidator ≠ signer →
      verifyBlockSigner signer validator headerValidator =
        .error .mismatchSignerAndValidator) ∧
    (verifyBlockSigner signer validator headerValidator = .ok () ↔
      signer = validator ∧ signer = headerValidator) := by
  refine ⟨?_, ?_, ?_, ?_⟩
  · intro h
    rw [verifyBlockSigner, if_pos h]
  · intro h1 h2
    rw [verifyBlockSigner, if_neg (by simp [h1]), if_pos (fun he => h2 he.symm)]
  · intro h
    by_cases h1 : signer = validator
    · by_cases h2 : signer = headerValidator
      · exact ⟨h1, h2⟩
      · rw [verifyBlockSigner, if_neg (by simp [h1]), if_pos h2] at h
        exact Except.noConfusion h
    · rw [verifyBlockSigner, if_pos h1] at h
      exact Except.noConfusion h
  · rintro ⟨h1, h2⟩
    rw [verifyBlockSigner, if_neg (by simp [h1]), if_neg (by simp [h2])]

/-- C5 witness: a wrong-turn signer is rejected with the first error, and a
header signed by the expected validator but carrying a different validator
field is rejected with the second. -/
theorem C5_verify_block_signer_witness :
    verifyBlockSigner (mkAddr 1) (mkAddr 2) (mkAddr 1) =
      .error .invalidBlockValidator ∧
    verifyBlockSigner (mkAddr 1) (mkAddr 1) (mkAddr 2) =
      .error .mismatchSignerAndValidator :=
  ⟨(C5_verify_block_signer (mkAddr 1) (mkAddr 2) (mkAddr 1)).1 (by decide),
   (C5_verify_block_signer (mkAddr 1) (mkAddr 1) (mkAddr 2)).2.1 rfl (by decide)⟩

/-- C8: for every context d and every mutation (an arbitrary state transformer,
in particular any sequence of the vote-lifecycle operations), taking a
snapshot, mutating, and reverting to the snapshot restores all five trie
handles, so the digest Root() afterwards equals the digest before. -/
theorem C8_snapshot_roundtrip (d : DposContext) (mutate : DposContext → DposContext)
    (ops : List Op) :
    ((mutate d).RevertToSnapShot d.Snapshot).Root = d.Root ∧
    ((d.run ops).RevertToSnapShot d.Snapshot).Root = d.Root :=
  ⟨rfl, rfl⟩

/-- C6: Delegate(V, C) fails with the invalid-candidate error exactly when C
is absent from the candidate trie; on success delegate[C‖V] = V and
vote[V] = C are written, and a previous vote for O ≠ C has its delegate row
removed; in particular after BecomeCandidate(A); BecomeCandidate(B);
Delegate(V,A); Delegate(V,B), the row delegate[A‖V] is absent, delegate[B‖V]
is present, and vote[V] = B. -/
theorem C6_delegate (d : DposContext) (v c : Bytes) (hv : v.length = 20)
    (hc : c.length = 20) :
    (d.candidateTrie.get c = none →
      d.Delegate v c = .error "invalid candidate to delegate") ∧
    (∀ cv, d.candidateTrie.get c = some cv → ∃ d', d.Delegate v c = .ok d') ∧
    (∀ d', d.Delegate v c = .ok d' →
      d'.delegateTrie.get (c ++ v) = some v ∧ d'.voteTrie.get v = some c ∧
      ∀ o, d.voteTrie.get v = some o → o.length = 20 → o ≠ c →
        d'.delegateTrie.get (o ++ v) = none) ∧
    ((NewDposContext.run
        [Op.becomeCandidate (mkAddr 1), Op.becomeCandidate (mkAddr 2),
         Op.delegateOp (mkAddr 3) (mkAddr 1),
         Op.delegateOp (mkAddr 3) (mkAddr 2)]).delegateTrie.get
          (mkAddr 1 ++ mkAddr 3) = none ∧
      (NewDposContext.run
        [Op.becomeCandidate (mkAddr 1), Op.becomeCandidate (mkAddr 2),
         Op.delegateOp (mkAddr 3) (mkAddr 1),
         Op.delegateOp (mkAddr 3) (mkAddr 2)]).delegateTrie.get
          (mkAddr 2 ++ mkAddr 3) = some (mkAddr 3) ∧
      (NewDposContext.run
        [Op.becomeCandidate (mkAddr 1), Op.becomeCandidate (mkAddr 2),
         Op.delegateOp (mkAddr 3) (mkAddr 1),
         Op.delegateOp (mkAddr 3) (mkAddr 2)]).voteTrie.get (mkAddr 3) =
        some (mkAddr 2)) := by
  have hvnil : v ≠ [] := ne_nil_of_len20 hv
  have hcnil : c ≠ [] := ne_nil_of_len20 hc
  refine ⟨fun h => Delegate_eq_error h, ?_, ?_, by decide, by decide, by decide⟩
  · intro cv hcand
    cases hold : d.voteTrie.get v with
    | none => exact ⟨_, Delegate_eq_ok_of_vote_none hcand hold⟩
    | some o => exact ⟨_, Delegate_eq_ok_of_vote_some hcand hold⟩
  · intro d' hok
    cases hcand : d.candidateTrie.get c with
    | none =>
      rw [Delegate_eq_error hcand] at hok
      exact Except.noConfusion hok
    | some cv =>
      cases hold : d.voteTrie.get v with
      | none =>
        rw [Delegate_eq_ok_of_vote_none hcand hold] at hok
        obtain rfl : _ = d' := Except.ok.inj hok
        refine ⟨?_, ?_, ?_⟩
        · show (d.delegateTrie.update (c ++ v) v).get (c ++ v) = some v
          rw [Trie.update_of_ne_nil _ hvnil, Trie.get_insert_self]
        · show (d.voteTrie.update v c).get v = some c
          rw [Trie.update_of_ne_nil _ hcnil, Trie.get_insert_self]
        · intro o ho _ _
          exact Option.noConfusion ho
      | some o0 =>
        rw [Delegate_eq_ok_of_vote_some hcand hold] at hok
        obtain rfl : _ = d' := Except.ok.inj hok
        refine ⟨?_, ?_, ?_⟩
        · show ((d.delegateTrie.eraseKey (o0 ++ v)).update (c ++ v) v).get (c ++ v) =
            some v
          rw [Trie.update_of_ne_nil _ hvnil, Trie.get_insert_self]
        · show (d.voteTrie.update v c).get v = some c
          rw [Trie.update_of_ne_nil _ hcnil, Trie.get_insert_self]
        · intro o ho ho20 hoc
          obtain rfl : o0 = o := Option.some.inj ho
          show ((d.delegateTrie.eraseKey (o0 ++ v)).update (c ++ v) v).get (o0 ++ v) = none
          have hne : o0 ++ v ≠ c ++ v := by
            intro h
            exact hoc (List.append_inj h (by rw [ho20, hc])).1
          rw [Trie.update_of_ne_nil _ hvnil, Trie.get_insert_ne _ _ hne,
              Trie.get_erase_self]
    
/-- C6 witness: the Delegate postconditions applied at a context holding one
registered candidate. -/
theorem C6_delegate_witness :
    ((mkAddr 3 : Bytes).length = 20 ∧ (mkAddr 1 : Bytes).length = 20) ∧
    (∀ d', (NewDposContext.run [Op.becomeCandidate (mkAddr 1)]).Delegate
        (mkAddr 3) (mkAddr 1) = .ok d' →
      d'.delegateTrie.get (mkAddr 1 ++ mkAddr 3) = some (mkAddr 3) ∧
      d'.voteTrie.get (mkAddr 3) = some (mkAddr 1) ∧
      ∀ o, (NewDposContext.run [Op.becomeCandidate (mkAddr 1)]).voteTrie.get
          (mkAddr 3) = some o → o.length = 20 → o ≠ mkAddr 1 →
        d'.delegateTrie.get (o ++ mkAddr 3) = none) :=
  ⟨⟨by decide, by decide⟩,
   (C6_delegate (NewDposContext.run [Op.becomeCandidate (mkAddr 1)])
      (mkAddr 3) (mkAddr 1) (by decide) (by decide)).2.2.1⟩

/-- C7: on a well-formed state, KickoutCandidate(A) removes A from the
candidate trie, removes every delegate-trie entry whose key has prefix A, and
clears vote[V] for every voter V with vote[V] = A; in particular after
BecomeCandidate(A); Delegate(V1,A); Delegate(V2,A); KickoutCandidate(A) the
whole context is empty again. -/
theorem C7_kickout_cascade {d : DposContext} (hinv : VoteInv d) {c : Bytes}
    (hc : c.length = 20) :
    (d.KickoutCandidate c).candidateTrie.get c = none ∧
    (∀ k : Bytes, c <+: k → (d.KickoutCandidate c).delegateTrie.get k = none) ∧
    (∀ w : Bytes, d.voteTrie.get w = some c →
      (d.KickoutCandidate c).voteTrie.get w = none) ∧
    NewDposContext.run
        [Op.becomeCandidate (mkAddr 1), Op.delegateOp (mkAddr 2) (mkAddr 1),
         Op.delegateOp (mkAddr 3) (mkAddr 1), Op.kickoutCandidate (mkAddr 1)] =
      NewDposContext :=
  ⟨kickout_candidate_none d c,
   fun k hk => kickout_delegate_none hinv hc k hk,
   fun w hw => kickout_vote_none hinv hc w hw,
   by decide⟩

/-- C7 witness: the cascade postconditions applied at a concrete state with
one candidate and two delegators. -/
theorem C7_kickout_cascade_witness :
    (VoteInv (NewDposContext.run
        [Op.becomeCandidate (mkAddr 1), Op.delegateOp (mkAddr 2) (mkAddr 1),
         Op.delegateOp (mkAddr 3) (mkAddr 1)]) ∧
      (mkAddr 1 : Bytes).length = 20) ∧
    (((NewDposContext.run
        [Op.becomeCandidate (mkAddr 1), Op.delegateOp (mkAddr 2) (mkAddr 1),
         Op.delegateOp (mkAddr 3) (mkAddr 1)]).KickoutCandidate
          (mkAddr 1)).candidateTrie.get (mkAddr 1) = none ∧
      (∀ k : Bytes, mkAddr 1 <+: k →
        ((NewDposContext.run
          [Op.becomeCandidate (mkAddr 1), Op.delegateOp (mkAddr 2) (mkAddr 1),
           Op.delegateOp (mkAddr 3) (mkAddr 1)]).KickoutCandidate
            (mkAddr 1)).delegateTrie.get k = none) ∧
      (∀ w : Bytes,
        (NewDposContext.run
          [Op.becomeCandidate (mkAddr 1), Op.delegateOp (mkAddr 2) (mkAddr 1),
           Op.delegateOp (mkAddr 3) (mkAddr 1)]).voteTrie.get w = some (mkAddr 1) →
        ((NewDposContext.run
          [Op.becomeCandidate (mkAddr 1), Op.delegateOp (mkAddr 2) (mkAddr 1),
           Op.delegateOp (mkAddr 3) (mkAddr 1)]).KickoutCandidate
            (mkAddr 1)).voteTrie.get w = none) ∧
      NewDposContext.run
          [Op.becomeCandidate (mkAddr 1), Op.delegateOp (mkAddr 2) (mkAddr 1),
           Op.delegateOp (mkAddr 3) (mkAddr 1), Op.kickoutCandidate (mkAddr 1)] =
        NewDposContext) :=
  ⟨⟨by decide, by decide⟩, C7_kickout_cascade (by decide) (by decide)⟩

/-- C4 counterexample: with max_validator_size = 3 (consensus_size = 3) and a
confirmed genesis, the walk over 3 headers in one epoch by distinct validators
A, B, C does advance the confirmed pointer and persists it, but to the first
of the three headers (the walked header at which the distinct-validator set
reaches size 3), not to the third header (the current head) as the claim
states. -/
theorem C4_confirmation_counterexample :
    updateConfirmedLoop 3 ⟨0, 0, mkAddr 9⟩ ⟨3, 30, mkAddr 3⟩
        [⟨2, 20, mkAddr 2⟩, ⟨1, 10, mkAddr 1⟩, ⟨0, 0, mkAddr 9⟩] (-1) [] =
      .ok (⟨1, 10, mkAddr 1⟩, true) ∧
    updateConfirmedLoop 3 ⟨0, 0, mkAddr 9⟩ ⟨3, 30, mkAddr 3⟩
        [⟨2, 20, mkAddr 2⟩, ⟨1, 10, mkAddr 1⟩, ⟨0, 0, mkAddr 9⟩] (-1) [] ≠
      .ok (⟨3, 30, mkAddr 3⟩, true) ∧
    (⟨1, 10, mkAddr 1⟩ : Header) ≠ ⟨3, 30, mkAddr 3⟩ := by
  refine ⟨by decide, by decide, by decide⟩

/-- C4 (amended): with max_validator_size = 3 (consensus_size = 3) and a
confirmed genesis, the confirmation walk over a chain of 3 headers in one
epoch by three distinct validators A, B, C advances the confirmed pointer to
the first of the three headers (the walked header at which the
distinct-validator set reaches consensus_size) and persists it, whereas on a
chain of headers by A, A, B the confirmed pointer does not advance; in
general, whenever the walk's guards pass and the distinct-validator set W,
after inserting the walked header's validator, reaches consensus_size, the
confirmed pointer is set to the currently walked header cur and persisted. -/
theorem C4_confirmation_amended :
    updateConfirmedLoop 3 ⟨0, 0, mkAddr 9⟩ ⟨3, 30, mkAddr 3⟩
        [⟨2, 20, mkAddr 2⟩, ⟨1, 10, mkAddr 1⟩, ⟨0, 0, mkAddr 9⟩] (-1) [] =
      .ok (⟨1, 10, mkAddr 1⟩, true) ∧
    updateConfirmedLoop 3 ⟨0, 0, mkAddr 9⟩ ⟨3, 30, mkAddr 2⟩
        [⟨2, 20, mkAddr 1⟩, ⟨1, 10, mkAddr 1⟩, ⟨0, 0, mkAddr 9⟩] (-1) [] =
      .ok (⟨0, 0, mkAddr 9⟩, false) ∧
    (∀ (msize : Nat) (confirmed cur : Header) (parents : List Header)
        (epoch : Int) (wmap : List Bytes),
      confirmed ≠ cur → confirmed.number < cur.number →
      (let curEpoch := goDiv cur.time epochInterval
       let wmap1 := if curEpoch ≠ epoch then ([] : List Bytes) else wmap
       let consensusSize := msize * 2 / 3 + 1
       let wmap2 := if cur.validator ∈ wmap1 then wmap1 else cur.validator :: wmap1
       ¬((cur.number : Int) - (confirmed.number : Int) <
           (consensusSize : Int) - (wmap1.length : Int)) ∧
         consensusSize ≤ wmap2.length) →
      updateConfirmedLoop msize confirmed cur parents epoch wmap = .ok (cur, true)) := by
  refine ⟨by decide, by decide, ?_⟩
  intro msize confirmed cur parents epoch wmap hne hlt hcond
  obtain ⟨hfast, hsize⟩ := hcond
  rw [updateConfirmedLoop, if_pos ⟨hne, hlt⟩]
  dsimp only
  rw [if_neg hfast, if_pos hsize]

/-- C4 witness: the general confirmation step applied at the final step of
the A, B, C scenario: walking header 1 with the set already holding B and C. -/
theorem C4_confirmation_amended_witness :
    ((⟨0, 0, mkAddr 9⟩ : Header) ≠ ⟨1, 10, mkAddr 1⟩ ∧
      (⟨0, 0, mkAddr 9⟩ : Header).number < (⟨1, 10, mkAddr 1⟩ : Header).number) ∧
    updateConfirmedLoop 3 ⟨0, 0, mkAddr 9⟩ ⟨1, 10, mkAddr 1⟩ [] 0
        [mkAddr 2, mkAddr 3] = .ok (⟨1, 10, mkAddr 1⟩, true) :=
  ⟨⟨by decide, by decide⟩,
   C4_confirmation_amended.2.2 3 ⟨0, 0, mkAddr 9⟩ ⟨1, 10, mkAddr 1⟩ [] 0
     [mkAddr 2, mkAddr 3] (by decide) (by decide) (by decide)⟩

/-- C9: for parent time tP, current time tC and validator V, the mint-count
update writes mintCnt[(cur_epoch, V)] (epoch and count as big-endian 8-byte
values) with new count = old + 1 exactly when cur_epoch = prev_epoch and an
entry for (cur_epoch, V) already exists in the mintCnt trie, and with new
count = 1 in every other case. -/
theorem C9_update_mint_cnt (tP tC : Int) (v : Bytes) (d : DposContext) :
    (updateMintCnt tP tC v d).mintCntTrie.get
        (be8 (toU64 (goDiv tC epochInterval)) ++ v) =
      some (be8 (if goDiv tP epochInterval = goDiv tC epochInterval ∧
          (d.mintCntTrie.get (be8 (toU64 (goDiv tP epochInterval)) ++ v)).isSome = true
        then
          beDecode ((d.mintCntTrie.get
            (be8 (toU64 (goDiv tP epochInterval)) ++ v)).getD []) + 1
        else 1)) := by
  simp only [updateMintCnt]
  rw [Trie.update_of_ne_nil _ (be8_ne_nil _), Trie.get_insert_self]
  refine congrArg some (congrArg be8 ?_)
  by_cases he : goDiv tP epochInterval = goDiv tC epochInterval
  · cases hget : d.mintCntTrie.get (be8 (toU64 (goDiv tP epochInterval)) ++ v) with
    | some x =>
      have hany := any_lexLe_of_get_some hget
      rw [if_pos he, if_pos hany]
      simp [he]
    | none =>
      rw [if_pos he]
      simp
  · rw [if_neg he]
    simp [he]

/-- C10: on a freshly created DposContext (all five tries empty) GetValidators
fails, because decoding the absent value under the key "validator" fails
rather than yielding an empty list; and after SetValidators(L) for any list L,
GetValidators returns exactly L. -/
theorem C10_get_set_validators (L : List Bytes) (d : DposContext) :
    NewDposContext.GetValidators =
      .error "failed to decode validators: rlp: empty input" ∧
    (d.SetValidators L).GetValidators = .ok L := by
  constructor
  · rfl
  · simp only [DposContext.SetValidators, DposContext.GetValidators]
    rw [Trie.update_of_ne_nil _ (by rw [rlpEncodeList]; exact List.cons_ne_nil _ _),
        Trie.get_insert_self, Option.getD_some, rlpEncodeList, rlpDecodeList,
        rlpDecodeItems_encode]
